import Mathlib

/-!
Verification of the schema-decoding core of `thrift_tools/idl.py`: a shallow
embedding of the IDL type model (`Ty`), the generic value decoder (`parse`),
the call/reply correlator (`Function.get_args`), and the catalog lookup
(`Idl.get_function`), together with proofs of the specified properties.

Python dictionaries built by comprehension are modelled by `pyDictOf`
(insert-with-overwrite, preserving first-insert position) and looked up with
`pyDictGet`; Python sets are modelled by `pySetAdd` (duplicate-free lists).
A Python runtime exception is modelled by `Option.none` from a fallible
operation.
-/

namespace ThriftTools

/-- Runtime values: primitives pass through the decoder unchanged; the other
constructors model the raw shapes a wire decoder produces (tagged field lists,
sequences, key/value pair sequences) and the decoded shapes the decoder
returns (named structs, sets, mappings). `vnone` is Python `None`, the
absence marker. -/
inductive Val where
  | vnone : Val
  | int : Int → Val
  | str : String → Val
  | fields : List (Int × Val) → Val
  | seq : List Val → Val
  | pairs : List (Val × Val) → Val
  | struct : String → List (String × Val) → Val
  | vset : List Val → Val
  | vmap : List (Val × Val) → Val

mutual

/-- Structural (Python `==`) equality test on values. -/
def Val.beq : Val → Val → Bool
  | .vnone, .vnone => true
  | .int a, .int b => decide (a = b)
  | .str a, .str b => decide (a = b)
  | .fields a, .fields b => beqFieldList a b
  | .seq a, .seq b => beqValList a b
  | .pairs a, .pairs b => beqPairList a b
  | .struct n a, .struct m b => decide (n = m) && beqNamedList a b
  | .vset a, .vset b => beqValList a b
  | .vmap a, .vmap b => beqPairList a b
  | _, _ => false

def beqValList : List Val → List Val → Bool
  | [], [] => true
  | a :: as, b :: bs => Val.beq a b && beqValList as bs
  | _, _ => false

def beqFieldList : List (Int × Val) → List (Int × Val) → Bool
  | [], [] => true
  | (i, a) :: as, (j, b) :: bs => decide (i = j) && Val.beq a b && beqFieldList as bs
  | _, _ => false

def beqPairList : List (Val × Val) → List (Val × Val) → Bool
  | [], [] => true
  | (k, a) :: as, (l, b) :: bs => Val.beq k l && Val.beq a b && beqPairList as bs
  | _, _ => false

def beqNamedList : List (String × Val) → List (String × Val) → Bool
  | [], [] => true
  | (s, a) :: as, (t, b) :: bs => decide (s = t) && Val.beq a b && beqNamedList as bs
  | _, _ => false

end

theorem val_sizeOf_pos : ∀ a : Val, 0 < sizeOf a := by
  intro a
  cases a <;> simp

theorem beqIffAux : ∀ n : Nat,
    (∀ a b : Val, sizeOf a ≤ n → (Val.beq a b = true ↔ a = b)) ∧
    (∀ as bs : List Val, sizeOf as ≤ n → (beqValList as bs = true ↔ as = bs)) ∧
    (∀ as bs : List (Int × Val), sizeOf as ≤ n → (beqFieldList as bs = true ↔ as = bs)) ∧
    (∀ as bs : List (Val × Val), sizeOf as ≤ n → (beqPairList as bs = true ↔ as = bs)) ∧
    (∀ as bs : List (String × Val), sizeOf as ≤ n → (beqNamedList as bs = true ↔ as = bs)) := by
  intro n
  induction n with
  | zero =>
    refine ⟨fun a b h => absurd h (by simpa using (val_sizeOf_pos a).ne'), ?_, ?_, ?_, ?_⟩ <;>
      exact fun as bs h => absurd h (by cases as <;> simp)
  | succ n ih =>
    obtain ⟨ihv, ihl, ihf, ihp, ihn⟩ := ih
    refine ⟨?_, ?_, ?_, ?_, ?_⟩
    · intro a b ha
      cases a with
      | vnone => cases b <;> simp [Val.beq]
      | int i => cases b <;> simp [Val.beq]
      | str s => cases b <;> simp [Val.beq]
      | fields l =>
        have hl : sizeOf l ≤ n := by simp at ha; omega
        cases b <;> simp [Val.beq, ihf _ _ hl]
      | seq l =>
        have hl : sizeOf l ≤ n := by simp at ha; omega
        cases b <;> simp [Val.beq, ihl _ _ hl]
      | pairs l =>
        have hl : sizeOf l ≤ n := by simp at ha; omega
        cases b <;> simp [Val.beq, ihp _ _ hl]
      | struct s l =>
        have hl : sizeOf l ≤ n := by simp at ha; omega
        cases b <;> simp [Val.beq, ihn _ _ hl]
      | vset l =>
        have hl : sizeOf l ≤ n := by simp at ha; omega
        cases b <;> simp [Val.beq, ihl _ _ hl]
      | vmap l =>
        have hl : sizeOf l ≤ n := by simp at ha; omega
        cases b <;> simp [Val.beq, ihp _ _ hl]
    · intro as bs ha
      cases as with
      | nil => cases bs <;> simp [beqValList]
      | cons a as =>
        cases bs with
        | nil => simp [beqValList]
        | cons b bs =>
          have h1 : sizeOf a ≤ n := by simp_all; omega
          have h2 : sizeOf as ≤ n := by simp_all; omega
          simp [beqValList, ihv _ b h1, ihl _ bs h2]
    · intro as bs ha
      cases as with
      | nil => cases bs <;> simp [beqFieldList]
      | cons a as =>
        cases bs with
        | nil => simp [beqFieldList]
        | cons b bs =>
          obtain ⟨i, a⟩ := a
          obtain ⟨j, b⟩ := b
          have h1 : sizeOf a ≤ n := by simp_all; omega
          have h2 : sizeOf as ≤ n := by simp_all; omega
          simp [beqFieldList, ihv _ b h1, ihf _ bs h2, and_assoc]
    · intro as bs ha
      cases as with
      | nil => cases bs <;> simp [beqPairList]
      | cons a as =>
        cases bs with
        | nil => simp [beqPairList]
        | cons b bs =>
          obtain ⟨k, a⟩ := a
          obtain ⟨l, b⟩ := b
          have h0 : sizeOf k ≤ n := by simp_all; omega
          have h1 : sizeOf a ≤ n := by simp_all; omega
          have h2 : sizeOf as ≤ n := by simp_all; omega
          simp [beqPairList, ihv _ l h0, ihv _ b h1, ihp _ bs h2, and_assoc]
    · intro as bs ha
      cases as with
      | nil => cases bs <;> simp [beqNamedList]
      | cons a as =>
        cases bs with
        | nil => simp [beqNamedList]
        | cons b bs =>
          obtain ⟨s, a⟩ := a
          obtain ⟨t, b⟩ := b
          have h1 : sizeOf a ≤ n := by simp_all; omega
          have h2 : sizeOf as ≤ n := by simp_all; omega
          simp [beqNamedList, ihv _ b h1, ihn _ bs h2, and_assoc]

theorem Val.beq_iff_eq (a b : Val) : Val.beq a b = true ↔ a = b :=
  (beqIffAux (sizeOf a)).1 a b le_rfl

instance : DecidableEq Val := fun a b =>
  decidable_of_iff (Val.beq a b = true) (Val.beq_iff_eq a b)

/-- Resolved schema types, mirroring the `Type` subclasses of `idl.py`.
`prim` stands for any resolved type that is *not* an instance of the `Type`
class (primitives, void): the decoder passes such values through unchanged.
A struct/exception field is `(tag, name, is_required, type)`, mirroring the
`Field` class. -/
inductive Ty where
  | prim : Ty
  | enum (name : String) (values : List (String × Int)) : Ty
  | struct (name : String) (fields : List (Int × String × Bool × Ty)) : Ty
  | exc (name : String) (fields : List (Int × String × Bool × Ty)) : Ty
  | list (type : Ty) : Ty
  | set (type : Ty) : Ty
  | map (key_type value_type : Ty) : Ty

/-- A struct/exception field or function argument/throw declaration:
`(tag, name, is_required, type)`. -/
abbrev Field := Int × String × Bool × Ty

def Field.tag (f : Field) : Int := f.1

def Field.name (f : Field) : String := f.2.1

def Field.is_required (f : Field) : Bool := f.2.2.1

def Field.type (f : Field) : Ty := f.2.2.2

instance : Inhabited Ty := ⟨Ty.prim⟩

instance : Inhabited Val := ⟨Val.vnone⟩

/-- `isinstance(x, Type)`: true for every schema type except the primitive
pass-through marker. -/
def Ty.isType : Ty → Bool
  | .prim => false
  | _ => true

/-- One insertion into a Python dict: an existing key keeps its position and
gets the new value, a new key is appended. -/
def pyDictInsert {K V : Type} [DecidableEq K] (d : List (K × V)) (k : K) (v : V) :
    List (K × V) :=
  if d.any (fun p => decide (p.1 = k)) then
    d.map (fun p => if p.1 = k then (k, v) else p)
  else
    d ++ [(k, v)]

/-- `dict((k, v) for (k, v) in l)`: build a Python dict from a pair sequence,
later pairs overwriting earlier ones. -/
def pyDictOf {K V : Type} [DecidableEq K] (l : List (K × V)) : List (K × V) :=
  l.foldl (fun d p => pyDictInsert d p.1 p.2) []

/-- `d.get(k)` / `d[k]` on a Python dict (the latter raising, i.e. `none`,
when absent). -/
def pyDictGet {K V : Type} [DecidableEq K] (d : List (K × V)) (k : K) : Option V :=
  (d.find? (fun p => decide (p.1 = k))).map Prod.snd

/-- `s.add(v)` on a Python set, modelled as a duplicate-free list. -/
def pySetAdd (s : List Val) (v : Val) : List Val :=
  if v ∈ s then s else s ++ [v]

theorem ty_sizeOf_pos : ∀ t : Ty, 0 < sizeOf t := by
  intro t
  cases t <;> simp

mutual

/-- The generic value decoder: `Enum.parse`, `Struct.parse` (inherited
unchanged by `Exc`), `List.parse`, `Set.parse` and `Map.parse` of `idl.py`,
dispatched on the runtime kind of the resolved type. `none` models a Python
exception escaping `parse` (a `KeyError` on an unknown enum tag, or a raw
value whose shape does not support the operations the method performs on it).
`parse` is never reached with a `prim` type: every call site guards with
`isinstance(_, Type)` (see `parseIfType`); for completeness the `prim` arm
returns the base class result `Type.parse`, which is `None`. -/
def parse : Ty → Val → Option Val
  | .prim, _ => some .vnone
  | .enum _ values, raw =>
    -- `self.names_by_tags = dict((value, name) for (name, value) in self.values)`
    -- `return self.names_by_tags[value]`
    match raw with
    | .int n => (pyDictGet (pyDictOf (values.map (fun p => (p.2, p.1)))) n).map Val.str
    | _ => none
  | .struct name fds, raw =>
    match raw with
    | .fields l => (parseStructFields fds (pyDictOf l)).map (Val.struct name)
    | _ => none
  | .exc name fds, raw =>
    match raw with
    | .fields l => (parseStructFields fds (pyDictOf l)).map (Val.struct name)
    | _ => none
  | .list t, raw =>
    match raw with
    | .seq l => (parseListElems t l).map Val.seq
    | _ => none
  | .set t, raw =>
    match raw with
    | .seq l => (parseSetElems t l []).map Val.vset
    | _ => none
  | .map kt vt, raw =>
    match raw with
    | .pairs l => (parseMapPairs kt vt l []).map Val.vmap
    | _ => none
termination_by t v => (sizeOf t, sizeOf v)
decreasing_by all_goals (simp_wf; apply Prod.Lex.left; omega)

/-- The guarded decode used at every site:
`if isinstance(t, Type): value = t.parse(value)`. -/
def parseIfType (t : Ty) (v : Val) : Option Val :=
  if t.isType then parse t v else some v
termination_by (sizeOf t, sizeOf v + 1)
decreasing_by apply Prod.Lex.right; omega

/-- The loop of `Struct.parse` over `self.fields`, given the prebuilt
`fields_by_tag` dict: an absent tag yields `None`, a present one is decoded
through the field's type when that type is a schema `Type`. -/
def parseStructFields : List Field → List (Int × Val) → Option (List (String × Val))
  | [], _ => some []
  | (tag, nm, _, ty) :: rest, dict =>
    match pyDictGet dict tag with
    | none => (parseStructFields rest dict).map ((nm, Val.vnone) :: ·)
    | some v =>
      match parseIfType ty v with
      | none => none
      | some d => (parseStructFields rest dict).map ((nm, d) :: ·)
termination_by fds _ => (sizeOf fds, 0)
decreasing_by all_goals (simp_wf; apply Prod.Lex.left; omega)

/-- The loop of `List.parse`. -/
def parseListElems : Ty → List Val → Option (List Val)
  | _, [] => some []
  | t, v :: rest =>
    match parseIfType t v with
    | none => none
    | some d => (parseListElems t rest).map (d :: ·)
termination_by t l => (sizeOf t, sizeOf l + 1)
decreasing_by all_goals (simp_wf; apply Prod.Lex.right; omega)

/-- The loop of `Set.parse`, accumulating into the mutable `set_values`. -/
def parseSetElems : Ty → List Val → List Val → Option (List Val)
  | _, [], acc => some acc
  | t, v :: rest, acc =>
    match parseIfType t v with
    | none => none
    | some d => parseSetElems t rest (pySetAdd acc d)
termination_by t l _ => (sizeOf t, sizeOf l + 1)
decreasing_by all_goals (simp_wf; apply Prod.Lex.right; omega)

/-- The loop of `Map.parse`, accumulating into the mutable `map_values`. -/
def parseMapPairs : Ty → Ty → List (Val × Val) → List (Val × Val) →
    Option (List (Val × Val))
  | _, _, [], acc => some acc
  | kt, vt, (k, v) :: rest, acc =>
    match parseIfType kt k with
    | none => none
    | some dk =>
      match parseIfType vt v with
      | none => none
      | some dv => parseMapPairs kt vt rest (pyDictInsert acc dk dv)
termination_by kt vt l _ => (sizeOf kt + sizeOf vt, sizeOf l + 1)
decreasing_by
  all_goals simp_wf
  all_goals try (apply Prod.Lex.right; omega)
  all_goals
    (have h1 := ty_sizeOf_pos kt
     have h2 := ty_sizeOf_pos vt
     apply Prod.Lex.left
     omega)

end

/-- An RPC message: a role marker (`msg.type`) and the tagged raw values
(`msg.args`, each entry exposing `field_id` and `value`). -/
structure Message where
  type : String
  args : List (Int × Val)

/-- The possible results of `Function.get_args`: a decoded argument list, a
decoded return/exception value, or the raw `msg.args` fallback. -/
inductive GetArgsResult where
  | args : List (String × Val) → GetArgsResult
  | value : Val → GetArgsResult
  | raw : List (Int × Val) → GetArgsResult

/-- A service method signature (class `Function` of `idl.py`); `type` is the
resolved return type (`prim` when void or primitive). -/
structure Function where
  name : String
  arguments : List Field
  type : Ty
  throws : List Field

/-- `self.throws_by_tags = dict((x.tag, x) for x in self.throws)`. -/
def Function.throws_by_tags (f : Function) : List (Int × Field) :=
  pyDictOf (f.throws.map (fun t => (t.tag, t)))

/-- The `msg.type == 'call'` loop of `get_args`, given the prebuilt
`args_by_tag` dict: `args_by_tag.get(arg.tag).value` raises
(`AttributeError` on `None`) when an argument tag is missing, and each value
is decoded through the argument's type when that type is a schema `Type`. -/
def getArgsCall : List Field → List (Int × Val) → Option (List (String × Val))
  | [], _ => some []
  | arg :: rest, args_by_tag =>
    match pyDictGet args_by_tag arg.tag with
    | none => none
    | some v =>
      match parseIfType arg.type v with
      | none => none
      | some d => (getArgsCall rest args_by_tag).map ((arg.name, d) :: ·)

/-- The body of the `try:` block of `Function.get_args`. `none` models an
exception escaping the block; `some none` models falling off its end without
returning (a reply with no values, or a role that is neither `'call'` nor
`'reply'`); `some (some r)` models `return r`. -/
def getArgsTry (f : Function) (msg : Message) : Option (Option GetArgsResult) :=
  if msg.type = "call" then
    match getArgsCall f.arguments (pyDictOf msg.args) with
    | none => none
    | some l => some (some (.args l))
  else if msg.type = "reply" then
    match msg.args with
    | [] => some none
    | (tag, v) :: _ =>
      if tag = 0 then
        -- return value
        match parseIfType f.type v with
        | none => none
        | some d => some (some (.value d))
      else
        -- throws: `self.throws_by_tags[msg.args[0].field_id].type` raises
        -- `KeyError` when the tag matches no declared throw
        match pyDictGet f.throws_by_tags tag with
        | none => none
        | some thr =>
          match parseIfType thr.type v with
          | none => none
          | some d => some (some (.value d))
  else some none

/-- `Function.get_args`: the whole body runs inside `try: ... except:`; any
exception is caught (and logged) and the raw `msg.args` is returned, and the
same final `return msg.args` applies when the `try:` body falls through
without returning. -/
def Function.get_args (f : Function) (msg : Message) : GetArgsResult :=
  match getArgsTry f msg with
  | some (some r) => r
  | _ => .raw msg.args

/-- The schema catalog (class `Idl`). -/
structure Idl where
  functions : List Function

/-- `self.functions_by_name = dict((x.name, x) for x in self.functions)`. -/
def Idl.functions_by_name (idl : Idl) : List (String × Function) :=
  pyDictOf (idl.functions.map (fun f => (f.name, f)))

/-- `Idl.get_function`: `self.functions_by_name.get(name, None)`. -/
def Idl.get_function (idl : Idl) (name : String) : Option Function :=
  pyDictGet idl.functions_by_name name

section PyDictLemmas

variable {K V : Type} [DecidableEq K]

theorem find?_map_replace_self (d : List (K × V)) (k : K) (v : V)
    (h : d.any (fun p => decide (p.1 = k)) = true) :
    ((d.map (fun p => if p.1 = k then (k, v) else p)).find?
      (fun p => decide (p.1 = k))) = some (k, v) := by
  induction d with
  | nil => simp at h
  | cons p rest ih =>
    by_cases hp : p.1 = k
    · simp [List.find?_cons, hp]
    · have h' : rest.any (fun p => decide (p.1 = k)) = true := by
        simpa [List.any_cons, hp] using h
      simpa [List.find?_cons, hp] using ih h'

theorem find?_map_replace_ne (d : List (K × V)) (k k' : K) (v : V) (hne : k' ≠ k) :
    ((d.map (fun p => if p.1 = k then (k, v) else p)).find?
      (fun p => decide (p.1 = k'))) = d.find? (fun p => decide (p.1 = k')) := by
  induction d with
  | nil => simp
  | cons p rest ih =>
    by_cases hp : p.1 = k
    · have h1 : ¬ (k = k') := fun h => hne h.symm
      have h2 : ¬ (p.1 = k') := by rw [hp]; exact h1
      simpa [List.find?_cons, hp, h1, h2] using ih
    · by_cases hq : p.1 = k'
      · have hrepl : (if p.1 = k then (k, v) else p) = p := if_neg hp
        rw [List.map_cons, hrepl, List.find?_cons, List.find?_cons, hq]
        simp
      · simpa [List.find?_cons, hp, hq] using ih

theorem pyDictGet_insert_self (d : List (K × V)) (k : K) (v : V) :
    pyDictGet (pyDictInsert d k v) k = some v := by
  unfold pyDictInsert pyDictGet
  split
  · rename_i h
    rw [find?_map_replace_self d k v h]
    rfl
  · rename_i h
    have hnone : d.find? (fun p => decide (p.1 = k)) = none := by
      rw [List.find?_eq_none]
      intro x hx hpx
      exact h (List.any_eq_true.mpr ⟨x, hx, hpx⟩)
    simp [List.find?_append, hnone]

theorem pyDictGet_insert_ne (d : List (K × V)) (k k' : K) (v : V) (hne : k' ≠ k) :
    pyDictGet (pyDictInsert d k v) k' = pyDictGet d k' := by
  unfold pyDictInsert pyDictGet
  split
  · rw [find?_map_replace_ne d k k' v hne]
  · have : (decide ((k, v).1 = k')) = false := by
      simp only [decide_eq_false_iff_not]
      exact fun h => hne h.symm
    simp [List.find?_append, this]

theorem pyDictGet_foldl (l : List (K × V)) (d : List (K × V)) (k : K) :
    pyDictGet (l.foldl (fun d p => pyDictInsert d p.1 p.2) d) k =
      ((l.reverse.find? (fun p => decide (p.1 = k))).map Prod.snd).or (pyDictGet d k) := by
  induction l generalizing d with
  | nil => simp
  | cons p rest ih =>
    simp only [List.foldl_cons, List.reverse_cons, List.find?_append]
    rw [ih]
    cases hfind : rest.reverse.find? (fun p => decide (p.1 = k)) with
    | some q => simp
    | none =>
      by_cases hp : p.1 = k
      · subst hp
        simp [List.find?_cons, pyDictGet_insert_self]
      · have : (decide (p.1 = k)) = false := by simpa using hp
        simp [List.find?_cons, this, pyDictGet_insert_ne d p.1 k p.2 (fun h => hp h.symm)]

/-- Lookup in a comprehension-built Python dict finds the *last* pair with
the requested key. -/
theorem pyDictGet_pyDictOf (l : List (K × V)) (k : K) :
    pyDictGet (pyDictOf l) k =
      (l.reverse.find? (fun p => decide (p.1 = k))).map Prod.snd := by
  rw [pyDictOf, pyDictGet_foldl]
  simp [pyDictGet]

theorem pyDictGet_pyDictOf_eq_none (l : List (K × V)) (k : K)
    (h : ∀ p ∈ l, p.1 ≠ k) : pyDictGet (pyDictOf l) k = none := by
  rw [pyDictGet_pyDictOf]
  have : l.reverse.find? (fun p => decide (p.1 = k)) = none := by
    rw [List.find?_eq_none]
    intro x hx
    simpa using h x (List.mem_reverse.mp hx)
  simp [this]

theorem pyDictGet_pyDictOf_last (l₁ l₂ : List (K × V)) (k : K) (v : V)
    (h : ∀ p ∈ l₂, p.1 ≠ k) :
    pyDictGet (pyDictOf (l₁ ++ (k, v) :: l₂)) k = some v := by
  rw [pyDictGet_pyDictOf]
  have h₂ : l₂.reverse.find? (fun p => decide (p.1 = k)) = none := by
    rw [List.find?_eq_none]
    intro x hx
    simpa using h x (List.mem_reverse.mp hx)
  simp [List.find?_append, h₂, List.find?_cons]

end PyDictLemmas

/-- Whatever `Struct.parse`'s field loop returns pairs the declared fields, in
declaration order, with their names and with either the absence marker (tag
not in the input dict) or the successfully decoded present value. -/
theorem parseStructFields_forall₂ (fds : List Field) (dict : List (Int × Val))
    (l : List (String × Val)) (h : parseStructFields fds dict = some l) :
    List.Forall₂ (fun (fd : Field) (p : String × Val) => p.1 = fd.name ∧
      match pyDictGet dict fd.tag with
      | none => p.2 = Val.vnone
      | some v => parseIfType fd.type v = some p.2) fds l := by
  induction fds generalizing l with
  | nil =>
    rw [parseStructFields] at h
    cases h
    exact List.Forall₂.nil
  | cons fd rest ih =>
    obtain ⟨tag, nm, req, ty⟩ := fd
    rw [parseStructFields] at h
    split at h
    · rename_i hget
      rw [Option.map_eq_some'] at h
      obtain ⟨l', hrest, rfl⟩ := h
      exact List.Forall₂.cons (by simp [Field.name, Field.tag, hget]) (ih l' hrest)
    · rename_i v hget
      split at h
      · exact absurd h (by simp)
      · rename_i d hd
        rw [Option.map_eq_some'] at h
        obtain ⟨l', hrest, rfl⟩ := h
        exact List.Forall₂.cons
          (by simp [Field.name, Field.tag, Field.type, hget, hd]) (ih l' hrest)

/-- On an empty `fields_by_tag` dict the field loop succeeds and pairs every
declared field with the absence marker. -/
theorem parseStructFields_nil_dict (fds : List Field) :
    parseStructFields fds [] =
      some (fds.map (fun fd => (fd.name, Val.vnone))) := by
  induction fds with
  | nil => rw [parseStructFields]; rfl
  | cons fd rest ih =>
    obtain ⟨tag, nm, req, ty⟩ := fd
    rw [parseStructFields]
    have : pyDictGet ([] : List (Int × Val)) tag = none := rfl
    rw [this, ih]
    rfl

/-- The call-argument loop succeeds on, and returns, any list that pairs the
declared arguments in order with names and decoded looked-up values. -/
theorem getArgsCall_of_forall₂ (arguments : List Field) (dict : List (Int × Val))
    (l : List (String × Val))
    (h : List.Forall₂ (fun (arg : Field) (p : String × Val) => p.1 = arg.name ∧
      ∃ v, pyDictGet dict arg.tag = some v ∧ parseIfType arg.type v = some p.2)
      arguments l) :
    getArgsCall arguments dict = some l := by
  induction h with
  | nil => rfl
  | cons hp hrest ih =>
    rename_i arg p args' l'
    obtain ⟨hname, v, hget, hparse⟩ := hp
    simp [getArgsCall, hget, hparse, ih, ← hname]

/-- The set-element loop under elementwise successful decoding folds the
decoded values into the accumulator with `set.add`. -/
theorem parseSetElems_eq (t : Ty) (l decoded : List Val)
    (h : List.Forall₂ (fun r d => parseIfType t r = some d) l decoded) :
    ∀ acc, parseSetElems t l acc = some (decoded.foldl pySetAdd acc) := by
  induction h with
  | nil => intro acc; simp [parseSetElems]
  | cons hp hrest ih =>
    intro acc
    rename_i r d rs ds
    simp only [parseSetElems, hp, List.foldl_cons]
    exact ih (pySetAdd acc d)

theorem mem_foldl_pySetAdd (decoded : List Val) (acc : List Val) (x : Val) :
    x ∈ decoded.foldl pySetAdd acc ↔ x ∈ acc ∨ x ∈ decoded := by
  induction decoded generalizing acc with
  | nil => simp
  | cons d ds ih =>
    rw [List.foldl_cons, ih]
    unfold pySetAdd
    split
    · rename_i hd
      constructor
      · rintro (hx | hx)
        · exact Or.inl hx
        · exact Or.inr (List.mem_cons_of_mem d hx)
      · rintro (hx | hx)
        · exact Or.inl hx
        · rcases List.mem_cons.mp hx with rfl | hx
          · exact Or.inl hd
          · exact Or.inr hx
    · simp [List.mem_append, List.mem_cons]
      tauto
  -- wait fix below

theorem nodup_foldl_pySetAdd (decoded : List Val) (acc : List Val)
    (hacc : acc.Nodup) : (decoded.foldl pySetAdd acc).Nodup := by
  induction decoded generalizing acc with
  | nil => exact hacc
  | cons d ds ih =>
    rw [List.foldl_cons]
    apply ih
    unfold pySetAdd
    split
    · exact hacc
    · rename_i hd
      simpa [List.nodup_append] using ⟨hacc, hd⟩

/-- Appending one raw pair to the input of the map loop post-composes one
decode-and-insert step. -/
theorem parseMapPairs_append (kt vt : Ty) (l : List (Val × Val)) (p : Val × Val)
    (acc : List (Val × Val)) :
    parseMapPairs kt vt (l ++ [p]) acc =
      (parseMapPairs kt vt l acc).bind (fun m =>
        match parseIfType kt p.1 with
        | none => none
        | some dk =>
          match parseIfType vt p.2 with
          | none => none
          | some dv => some (pyDictInsert m dk dv)) := by
  induction l generalizing acc with
  | nil =>
    obtain ⟨k0, v0⟩ := p
    cases h1 : parseIfType kt k0 with
    | none => simp [parseMapPairs, h1]
    | some dk =>
      cases h2 : parseIfType vt v0 with
      | none => simp [parseMapPairs, h1, h2]
      | some dv => simp [parseMapPairs, h1, h2]
  | cons q rest ih =>
    obtain ⟨k0, v0⟩ := q
    cases h1 : parseIfType kt k0 with
    | none => simp [parseMapPairs, h1]
    | some dk =>
      cases h2 : parseIfType vt v0 with
      | none => simp [parseMapPairs, h1, h2]
      | some dv =>
        simp only [List.cons_append, parseMapPairs, h1, h2]
        exact ih (pyDictInsert acc dk dv)

theorem find?_eq_of_unique {α : Type} (l : List α) (p : α → Bool) (a : α)
    (ha : a ∈ l) (hpa : p a = true) (huniq : ∀ b ∈ l, p b = true → b = a) :
    l.find? p = some a := by
  induction l with
  | nil => cases ha
  | cons x xs ih =>
    by_cases hx : p x = true
    · have hxa : x = a := huniq x (List.mem_cons_self x xs) hx
      subst hxa
      exact List.find?_cons_of_pos xs hx
    · rcases List.mem_cons.mp ha with rfl | ha'
      · exact absurd hpa hx
      · rw [List.find?_cons_of_neg xs hx]
        exact ih ha' (fun b hb hpb => huniq b (List.mem_cons_of_mem x hb) hpb)

/-- A comprehension-built dict ignores pairs bearing a key different from the
one looked up. -/
theorem pyDictGet_pyDictOf_middle_ne {K V : Type} [DecidableEq K]
    (l₁ l₂ : List (K × V)) (q : K × V) (k : K) (hq : q.1 ≠ k) :
    pyDictGet (pyDictOf (l₁ ++ q :: l₂)) k = pyDictGet (pyDictOf (l₁ ++ l₂)) k := by
  rw [pyDictGet_pyDictOf, pyDictGet_pyDictOf]
  simp only [List.reverse_append, List.reverse_cons, List.find?_append, List.append_assoc,
    List.singleton_append]
  rw [List.find?_cons_of_neg _ (by simpa using hq)]

/-- The struct field loop only looks at the dict through the declared tags. -/
theorem parseStructFields_congr (fds : List Field) (d₁ d₂ : List (Int × Val))
    (h : ∀ fd ∈ fds, pyDictGet d₁ (Field.tag fd) = pyDictGet d₂ (Field.tag fd)) :
    parseStructFields fds d₁ = parseStructFields fds d₂ := by
  induction fds with
  | nil => rw [parseStructFields, parseStructFields]
  | cons fd rest ih =>
    obtain ⟨tag, nm, req, ty⟩ := fd
    have htag := h _ (List.mem_cons_self _ _)
    simp only [Field.tag] at htag
    have hrest := ih (fun fd hfd => h fd (List.mem_cons_of_mem _ hfd))
    rw [parseStructFields, parseStructFields]
    simp only [htag, hrest]

/-- A successful lookup in `throws_by_tags` when a unique declared throw
carries the requested tag. -/
theorem throws_by_tags_get (f : Function) (thr : Field) (tag : Int)
    (hmem : thr ∈ f.throws) (htag : Field.tag thr = tag)
    (huniq : ∀ g ∈ f.throws, Field.tag g = tag → g = thr) :
    pyDictGet f.throws_by_tags tag = some thr := by
  rw [Function.throws_by_tags, pyDictGet_pyDictOf]
  have hfind := find?_eq_of_unique
    ((f.throws.map (fun t => (Field.tag t, t))).reverse)
    (fun p => decide (p.1 = tag)) (Field.tag thr, thr)
    (List.mem_reverse.mpr (List.mem_map_of_mem _ hmem))
    (by simpa using htag)
    ?uniq
  · rw [hfind]
    rfl
  case uniq =>
    intro b hb hpb
    obtain ⟨g, hg, rfl⟩ := List.mem_map.mp (List.mem_reverse.mp hb)
    have hgt : Field.tag g = tag := by simpa using hpb
    rw [huniq g hg hgt, htag]

/-- Whenever the `try:` body of `get_args` returns, it returns a decoded
argument list or a decoded value, never the raw fallback. -/
theorem getArgsTry_shape (f : Function) (msg : Message) (r : GetArgsResult)
    (h : getArgsTry f msg = some (some r)) :
    (∃ l, r = .args l) ∨ (∃ v, r = .value v) := by
  unfold getArgsTry at h
  split at h
  · split at h
    · exact absurd h (by simp)
    · rename_i l hc
      simp only [Option.some.injEq] at h
      exact Or.inl ⟨l, h.symm⟩
  · split at h
    · split at h
      · exact absurd h (by simp)
      · rename_i tag v rest
        split at h
        · split at h
          · exact absurd h (by simp)
          · rename_i d hd
            simp only [Option.some.injEq] at h
            exact Or.inr ⟨d, h.symm⟩
        · split at h
          · exact absurd h (by simp)
          · rename_i thr hthr
            split at h
            · exact absurd h (by simp)
            · rename_i d hd
              simp only [Option.some.injEq] at h
              exact Or.inr ⟨d, h.symm⟩
    · exact absurd h (by simp)

/-- Schema fixtures used by the concrete witnesses: the spec's example
`exception Err { 1: string message }` and
`service S { i32 add(1: i32 a, 2: i32 b) throws (1: Err e) }` (i32 and
string resolve to primitive pass-through markers). -/
def errTy : Ty := .exc "Err" [(1, "message", false, .prim)]

def addFn : Function :=
  { name := "add", arguments := [(1, "a", true, .prim), (2, "b", true, .prim)],
    type := .prim, throws := [(1, "e", false, errTy)] }

/-- C1: for every function spec and every message (any role marker, any
tagged values), `get_args` never raises: it is total and returns either a
decoded structure (argument list, return value or exception value) or the
message's original raw tagged-value payload. -/
theorem get_args_never_raises (f : Function) (msg : Message) :
    (∃ l, f.get_args msg = .args l) ∨ (∃ v, f.get_args msg = .value v) ∨
      f.get_args msg = .raw msg.args := by
  unfold Function.get_args
  cases htry : getArgsTry f msg with
  | none => exact Or.inr (Or.inr rfl)
  | some o =>
    cases o with
    | none => exact Or.inr (Or.inr rfl)
    | some r =>
      rcases getArgsTry_shape f msg r htry with ⟨l, rfl⟩ | ⟨v, rfl⟩
      · exact Or.inl ⟨l, rfl⟩
      · exact Or.inr (Or.inl ⟨v, rfl⟩)

/-- C9: a message whose role marker is neither `'call'` nor `'reply'` makes
the `try:` body fall through, so `get_args` returns the raw payload
unchanged without decoding anything. -/
theorem get_args_unknown_role_raw (f : Function) (msg : Message)
    (hc : msg.type ≠ "call") (hr : msg.type ≠ "reply") :
    f.get_args msg = .raw msg.args := by
  unfold Function.get_args getArgsTry
  rw [if_neg hc, if_neg hr]

theorem get_args_unknown_role_raw_witness :
    addFn.get_args ⟨"oneway", [(1, .int 3)]⟩ = .raw [(1, .int 3)] :=
  get_args_unknown_role_raw addFn ⟨"oneway", [(1, .int 3)]⟩ (by decide) (by decide)

/-- C3: on a call-role message whose tag dict yields a value for every
declared argument, each decoding through the argument's type when that type
is a schema `Type` (and passed through unchanged otherwise), `get_args`
returns exactly the ordered (argName, decodedValue) pairs in the function's
declared argument order. -/
theorem get_args_call_declared_order (f : Function) (msg : Message)
    (l : List (String × Val)) (hrole : msg.type = "call")
    (h : List.Forall₂ (fun (arg : Field) (p : String × Val) =>
      p.1 = Field.name arg ∧ ∃ v, pyDictGet (pyDictOf msg.args) (Field.tag arg) = some v ∧
        parseIfType (Field.type arg) v = some p.2) f.arguments l) :
    f.get_args msg = .args l := by
  unfold Function.get_args getArgsTry
  rw [if_pos hrole, getArgsCall_of_forall₂ f.arguments (pyDictOf msg.args) l h]

theorem get_args_call_declared_order_witness :
    addFn.get_args ⟨"call", [(1, .int 3), (2, .int 4)]⟩ =
      .args [("a", .int 3), ("b", .int 4)] := by
  apply get_args_call_declared_order addFn ⟨"call", [(1, .int 3), (2, .int 4)]⟩
    [("a", .int 3), ("b", .int 4)] rfl
  refine List.Forall₂.cons ⟨rfl, .int 3, by rfl, by simp [parseIfType, Ty.isType, Field.type, addFn]⟩ ?_
  refine List.Forall₂.cons ⟨rfl, .int 4, by rfl, by simp [parseIfType, Ty.isType, Field.type, addFn]⟩ ?_
  exact List.Forall₂.nil

/-- C4: on a non-empty reply-role message `get_args` examines only the first
tagged value: tag 0 yields the value decoded through the declared return
type (never treated as an exception, whatever the declared throws), and a
non-zero tag equal to the tag of the (unique) matching declared throw yields
the value decoded through that exception's type. -/
theorem get_args_reply_first_value (f : Function) (msg : Message) (tag : Int)
    (v : Val) (rest : List (Int × Val)) (hrole : msg.type = "reply")
    (hargs : msg.args = (tag, v) :: rest) :
    (tag = 0 → ∀ d, parseIfType f.type v = some d → f.get_args msg = .value d) ∧
    (tag ≠ 0 → ∀ thr : Field, thr ∈ f.throws → Field.tag thr = tag →
      (∀ g ∈ f.throws, Field.tag g = tag → g = thr) →
      ∀ d, parseIfType (Field.type thr) v = some d → f.get_args msg = .value d) := by
  have hnotcall : ¬ msg.type = "call" := by rw [hrole]; decide
  constructor
  · intro h0 d hd
    subst h0
    unfold Function.get_args getArgsTry
    rw [if_neg hnotcall, if_pos hrole, hargs]
    simp [hd]
  · intro hne thr hmem htag huniq d hd
    have hget := throws_by_tags_get f thr tag hmem htag huniq
    unfold Function.get_args getArgsTry
    rw [if_neg hnotcall, if_pos hrole, hargs]
    simp [hne, hget, hd]

theorem get_args_reply_first_value_witness :
    addFn.get_args ⟨"reply", [(0, .int 7)]⟩ = .value (.int 7) ∧
    addFn.get_args ⟨"reply", [(1, .fields [(1, .str "boom")])]⟩ =
      .value (.struct "Err" [("message", .str "boom")]) := by
  constructor
  · exact (get_args_reply_first_value addFn ⟨"reply", [(0, .int 7)]⟩ 0 (.int 7) [] rfl rfl).1
      rfl (.int 7) (by simp [parseIfType, Ty.isType, Field.type, addFn])
  · refine (get_args_reply_first_value addFn ⟨"reply", [(1, .fields [(1, .str "boom")])]⟩ 1
      (.fields [(1, .str "boom")]) [] rfl rfl).2 (by decide) (1, "e", false, errTy)
      (by simp [addFn]) rfl ?_ (.struct "Err" [("message", .str "boom")]) ?_
    · intro g hg hgt
      simpa [addFn] using hg
    · simp [parseIfType, Ty.isType, Field.type, errTy, parse, parseStructFields, pyDictOf,
        pyDictInsert, pyDictGet]

theorem parse_struct_fields_eq (name : String) (fds : List Field)
    (raw : List (Int × Val)) :
    parse (.struct name fds) (.fields raw) =
      (parseStructFields fds (pyDictOf raw)).map (Val.struct name) := by
  simp only [parse]

theorem parse_exc_fields_eq (name : String) (fds : List Field)
    (raw : List (Int × Val)) :
    parse (.exc name fds) (.fields raw) =
      (parseStructFields fds (pyDictOf raw)).map (Val.struct name) := by
  simp only [parse]

/-- C2: decoding a raw field list through a struct (or exception) type
iterates the declared fields in schema declaration order and returns one
(fieldName, value) pair per declared field, in declared order, with the
absence marker for every field whose tag is absent from the raw input; in
particular an empty raw field list decodes to every declared field paired
with the absence marker, in declared order. -/
theorem struct_parse_declared_order (name : String) (fds : List Field)
    (raw : List (Int × Val)) :
    (∀ r, parse (.struct name fds) (.fields raw) = some r →
      ∃ l, r = .struct name l ∧
        List.Forall₂ (fun (fd : Field) (p : String × Val) =>
          p.1 = Field.name fd ∧
            ((∀ e ∈ raw, e.1 ≠ Field.tag fd) → p.2 = .vnone)) fds l) ∧
    (∀ r, parse (.exc name fds) (.fields raw) = some r →
      ∃ l, r = .struct name l ∧
        List.Forall₂ (fun (fd : Field) (p : String × Val) =>
          p.1 = Field.name fd ∧
            ((∀ e ∈ raw, e.1 ≠ Field.tag fd) → p.2 = .vnone)) fds l) ∧
    parse (.struct name fds) (.fields []) =
      some (.struct name (fds.map (fun fd => (Field.name fd, Val.vnone)))) ∧
    parse (.exc name fds) (.fields []) =
      some (.struct name (fds.map (fun fd => (Field.name fd, Val.vnone)))) := by
  have main : ∀ r, (parseStructFields fds (pyDictOf raw)).map (Val.struct name) = some r →
      ∃ l, r = .struct name l ∧
        List.Forall₂ (fun (fd : Field) (p : String × Val) =>
          p.1 = Field.name fd ∧
            ((∀ e ∈ raw, e.1 ≠ Field.tag fd) → p.2 = .vnone)) fds l := by
    intro r hr
    rw [Option.map_eq_some'] at hr
    obtain ⟨l0, hl0, rfl⟩ := hr
    refine ⟨l0, rfl, ?_⟩
    refine (parseStructFields_forall₂ fds (pyDictOf raw) l0 hl0).imp ?_
    intro fd p hp
    refine ⟨hp.1, fun habs => ?_⟩
    have h2 := hp.2
    rw [pyDictGet_pyDictOf_eq_none raw (Field.tag fd) habs] at h2
    exact h2
  have hnil : (parseStructFields fds (pyDictOf ([] : List (Int × Val)))).map
      (Val.struct name) =
      some (.struct name (fds.map (fun fd => (Field.name fd, Val.vnone)))) := by
    have hd : pyDictOf ([] : List (Int × Val)) = [] := rfl
    rw [hd, parseStructFields_nil_dict]
    rfl
  exact ⟨fun r hr => main r ((parse_struct_fields_eq name fds raw) ▸ hr),
    fun r hr => main r ((parse_exc_fields_eq name fds raw) ▸ hr),
    (parse_struct_fields_eq name fds []).trans hnil,
    (parse_exc_fields_eq name fds []).trans hnil⟩

theorem struct_parse_declared_order_witness :
    ∃ l, (Val.struct "S" [("x", Val.int 5), ("y", Val.vnone)]) = .struct "S" l ∧
      List.Forall₂ (fun (fd : Field) (p : String × Val) =>
        p.1 = Field.name fd ∧
          ((∀ e ∈ [((1 : Int), Val.int 5)], e.1 ≠ Field.tag fd) → p.2 = .vnone))
        [(1, "x", true, .prim), (2, "y", true, .prim)] l :=
  (struct_parse_declared_order "S" [(1, "x", true, .prim), (2, "y", true, .prim)]
      [(1, .int 5)]).1 _
    (by simp [parse_struct_fields_eq, parseStructFields, parseIfType, Ty.isType,
      pyDictOf, pyDictInsert, pyDictGet])

/-- C10: struct decode resolves duplicate raw tags by letting the last raw
entry with a declared tag provide the value decoded for that field, and raw
entries whose tag matches no declared field are silently ignored. -/
theorem struct_parse_last_wins_ignores_unknown (name : String) (fds : List Field) :
    (∀ (l₁ l₂ : List (Int × Val)) (t : Int) (v : Val),
      (∀ fd ∈ fds, Field.tag fd ≠ t) →
      parse (.struct name fds) (.fields (l₁ ++ (t, v) :: l₂)) =
        parse (.struct name fds) (.fields (l₁ ++ l₂))) ∧
    (∀ (fds₁ fds₂ : List Field) (fd : Field) (l₁ l₂ : List (Int × Val)) (w : Val)
      (l : List (String × Val)),
      fds = fds₁ ++ fd :: fds₂ →
      (∀ e ∈ l₂, e.1 ≠ Field.tag fd) →
      parse (.struct name fds) (.fields (l₁ ++ (Field.tag fd, w) :: l₂)) =
        some (.struct name l) →
      ∃ p, l.get? fds₁.length = some p ∧ p.1 = Field.name fd ∧
        parseIfType (Field.type fd) w = some p.2) := by
  constructor
  · intro l₁ l₂ t v hno
    rw [parse_struct_fields_eq, parse_struct_fields_eq]
    congr 1
    apply parseStructFields_congr
    intro fd hfd
    exact pyDictGet_pyDictOf_middle_ne l₁ l₂ (t, v) (Field.tag fd)
      (fun h => hno fd hfd h.symm)
  · intro fds₁ fds₂ fd l₁ l₂ w l hsplit hno hparse
    subst hsplit
    rw [parse_struct_fields_eq, Option.map_eq_some'] at hparse
    obtain ⟨l0, hl0, hl0eq⟩ := hparse
    have hleq : l0 = l := by simpa using hl0eq
    subst hleq
    have hget : pyDictGet (pyDictOf (l₁ ++ (Field.tag fd, w) :: l₂)) (Field.tag fd) =
        some w := pyDictGet_pyDictOf_last l₁ l₂ (Field.tag fd) w hno
    have hf := parseStructFields_forall₂ (fds₁ ++ fd :: fds₂)
      (pyDictOf (l₁ ++ (Field.tag fd, w) :: l₂)) l0 hl0
    rw [List.forall₂_iff_get] at hf
    obtain ⟨hlen, hpt⟩ := hf
    have hi : fds₁.length < (fds₁ ++ fd :: fds₂).length := by simp
    have hil : fds₁.length < l0.length := hlen ▸ hi
    have hfd_at : (fds₁ ++ fd :: fds₂).get ⟨fds₁.length, hi⟩ = fd := by
      simp [List.get_eq_getElem, List.getElem_append_right (Nat.le_refl fds₁.length)]
    have hrel := hpt fds₁.length hi hil
    rw [hfd_at, hget] at hrel
    exact ⟨l0.get ⟨fds₁.length, hil⟩, List.get?_eq_get hil, hrel.1, hrel.2⟩

theorem struct_parse_last_wins_ignores_unknown_witness :
    parse (.struct "S" [(1, "x", true, .prim)])
        (.fields ([(1, .int 1)] ++ (9, .int 9) :: [(1, .int 2)])) =
      parse (.struct "S" [(1, "x", true, .prim)]) (.fields ([(1, .int 1)] ++ [(1, .int 2)])) ∧
    ∃ p, [("x", Val.int 2)].get? 0 = some p ∧ p.1 = Field.name ((1 : Int), "x", true, Ty.prim) ∧
      parseIfType (Field.type ((1 : Int), "x", true, Ty.prim)) (.int 2) = some p.2 := by
  have h := struct_parse_last_wins_ignores_unknown "S" [(1, "x", true, .prim)]
  constructor
  · exact h.1 [(1, .int 1)] [(1, .int 2)] 9 (.int 9) (by decide)
  · exact h.2 [] [] (1, "x", true, .prim) [(1, .int 1), (9, .int 9)] [] (.int 2)
      [("x", .int 2)] rfl (by decide)
      (by simp [parse_struct_fields_eq, parseStructFields, parseIfType, Ty.isType,
        Field.tag, pyDictOf, pyDictInsert, pyDictGet])

/-- C5: when the declared tags are pairwise distinct, enum decode is a left
inverse of tag assignment (decoding a declared label's tag returns that
label), and decoding an integer that is no declared tag is a decode error
(an exception, no fallback label). -/
theorem enum_parse_left_inverse (name : String) (values : List (String × Int))
    (hnodup : (values.map Prod.snd).Nodup) :
    (∀ lbl tag, (lbl, tag) ∈ values →
      parse (.enum name values) (.int tag) = some (.str lbl)) ∧
    (∀ n : Int, n ∉ values.map Prod.snd → parse (.enum name values) (.int n) = none) := by
  have hrw : ∀ n : Int, parse (.enum name values) (.int n) =
      (pyDictGet (pyDictOf (values.map (fun p => (p.2, p.1)))) n).map Val.str := by
    intro n
    simp only [parse]
  constructor
  · intro lbl tag hmem
    rw [hrw, pyDictGet_pyDictOf]
    have hfind := find?_eq_of_unique ((values.map (fun p => (p.2, p.1))).reverse)
      (fun p => decide (p.1 = tag)) (tag, lbl)
      (List.mem_reverse.mpr (List.mem_map.mpr ⟨(lbl, tag), hmem, rfl⟩))
      (by simp) ?uniq
    · rw [hfind]
      rfl
    case uniq =>
      intro b hb hpb
      obtain ⟨q, hq, rfl⟩ := List.mem_map.mp (List.mem_reverse.mp hb)
      have hq2 : q.2 = tag := by simpa using hpb
      have hqe : q = (lbl, tag) := List.inj_on_of_nodup_map hnodup hq hmem (by simp [hq2])
      rw [hqe]
  · intro n hnot
    rw [hrw]
    have hnone : pyDictGet (pyDictOf (values.map (fun p => (p.2, p.1)))) n = none := by
      apply pyDictGet_pyDictOf_eq_none
      intro p hp
      obtain ⟨q, hq, rfl⟩ := List.mem_map.mp hp
      intro hq1
      exact hnot (List.mem_map.mpr ⟨q, hq, by simpa using hq1⟩)
    rw [hnone]
    rfl

theorem enum_parse_left_inverse_witness :
    parse (.enum "E" [("A", 1), ("B", 2)]) (.int 2) = some (.str "B") ∧
    parse (.enum "E" [("A", 1), ("B", 2)]) (.int 3) = none := by
  have h := enum_parse_left_inverse "E" [("A", 1), ("B", 2)] (by decide)
  exact ⟨h.1 "B" 2 (by decide), h.2 3 (by decide)⟩

/-- C6: map decode inserts pairs in input order after independently decoding
key and value, so a later pair whose decoded key collides with an earlier
one overwrites it; in particular a two-pair input with colliding decoded
keys yields a single-entry mapping holding the second pair's value. -/
theorem map_parse_last_write_wins (kt vt : Ty) (rk₁ rv₁ rk₂ rv₂ k w₁ w₂ : Val)
    (hk₁ : parseIfType kt rk₁ = some k) (hk₂ : parseIfType kt rk₂ = some k)
    (hv₁ : parseIfType vt rv₁ = some w₁) (hv₂ : parseIfType vt rv₂ = some w₂) :
    parse (.map kt vt) (.pairs [(rk₁, rv₁), (rk₂, rv₂)]) = some (.vmap [(k, w₂)]) ∧
    (∀ (l m : List (Val × Val)),
      parse (.map kt vt) (.pairs (l ++ [(rk₂, rv₂)])) = some (.vmap m) →
      pyDictGet m k = some w₂) := by
  have hrw : ∀ l : List (Val × Val), parse (.map kt vt) (.pairs l) =
      (parseMapPairs kt vt l []).map Val.vmap := by
    intro l
    simp only [parse]
  constructor
  · rw [hrw]
    simp [parseMapPairs, hk₁, hv₁, hk₂, hv₂, pyDictInsert]
  · intro l m hp
    rw [hrw, Option.map_eq_some'] at hp
    obtain ⟨m0, hm0, hm0eq⟩ := hp
    have hmeq : m0 = m := by simpa using hm0eq
    subst hmeq
    rw [parseMapPairs_append, Option.bind_eq_some] at hm0
    obtain ⟨m', hm', hstep⟩ := hm0
    simp only [hk₂, hv₂, Option.some.injEq] at hstep
    rw [← hstep]
    exact pyDictGet_insert_self m' k w₂

theorem map_parse_last_write_wins_witness :
    parse (.map .prim .prim) (.pairs [(.int 1, .int 10), (.int 1, .int 20)]) =
      some (.vmap [(.int 1, .int 20)]) :=
  (map_parse_last_write_wins .prim .prim (.int 1) (.int 10) (.int 1) (.int 20) (.int 1)
    (.int 10) (.int 20) (by simp [parseIfType, Ty.isType]) (by simp [parseIfType, Ty.isType])
    (by simp [parseIfType, Ty.isType]) (by simp [parseIfType, Ty.isType])).1

/-- C7: set decode of a raw sequence whose elements all decode yields a
de-duplicated collection containing exactly the distinct decoded values, so
its cardinality is the number of distinct post-decode values (raw elements
decoding to the same value are collapsed into one). -/
theorem set_parse_dedup_card (t : Ty) (l decoded : List Val)
    (h : List.Forall₂ (fun r d => parseIfType t r = some d) l decoded) :
    ∃ s, parse (.set t) (.seq l) = some (.vset s) ∧ s.Nodup ∧
      (∀ x, x ∈ s ↔ x ∈ decoded) ∧ s.length = decoded.dedup.length := by
  have hrw : parse (.set t) (.seq l) = (parseSetElems t l []).map Val.vset := by
    simp only [parse]
  refine ⟨decoded.foldl pySetAdd [], ?_, ?_, ?_, ?_⟩
  · rw [hrw, parseSetElems_eq t l decoded h []]
    rfl
  · exact nodup_foldl_pySetAdd decoded [] List.nodup_nil
  · intro x
    rw [mem_foldl_pySetAdd]
    simp
  · apply List.Perm.length_eq
    rw [List.perm_ext_iff_of_nodup (nodup_foldl_pySetAdd decoded [] List.nodup_nil)
      (List.nodup_dedup decoded)]
    intro a
    rw [mem_foldl_pySetAdd, List.mem_dedup]
    simp

theorem set_parse_dedup_card_witness :
    ∃ s, parse (.set .prim) (.seq [.int 1, .int 2, .int 1]) = some (.vset s) ∧ s.Nodup ∧
      (∀ x, x ∈ s ↔ x ∈ [Val.int 1, .int 2, .int 1]) ∧
      s.length = [Val.int 1, .int 2, .int 1].dedup.length :=
  set_parse_dedup_card .prim [.int 1, .int 2, .int 1] [.int 1, .int 2, .int 1]
    (by refine List.Forall₂.cons (by simp [parseIfType, Ty.isType]) ?_
        refine List.Forall₂.cons (by simp [parseIfType, Ty.isType]) ?_
        exact List.Forall₂.cons (by simp [parseIfType, Ty.isType]) List.Forall₂.nil)

/-- C8: in the catalog lookup a later-parsed function silently replaces an
earlier one with the same name (the last function bearing the looked-up name
is returned), and looking up a name carried by no function returns the
absence value, a normal non-error result. -/
theorem get_function_shadow_and_absent :
    (∀ (l₁ l₂ l₃ : List Function) (f g : Function), f.name = g.name →
      (∀ h ∈ l₃, Function.name h ≠ g.name) →
      (Idl.mk (l₁ ++ f :: l₂ ++ g :: l₃)).get_function g.name = some g) ∧
    (∀ (fns : List Function) (n : String), (∀ f ∈ fns, Function.name f ≠ n) →
      (Idl.mk fns).get_function n = none) := by
  constructor
  · intro l₁ l₂ l₃ f g hname hlast
    show pyDictGet (pyDictOf ((l₁ ++ f :: l₂ ++ g :: l₃).map (fun x => (x.name, x))))
      g.name = some g
    have hmap : (l₁ ++ f :: l₂ ++ g :: l₃).map (fun x => (x.name, x)) =
        (l₁.map (fun x => (Function.name x, x)) ++ (f.name, f) ::
          l₂.map (fun x => (Function.name x, x))) ++
          (g.name, g) :: l₃.map (fun x => (Function.name x, x)) := by
      simp
    rw [hmap, pyDictGet_pyDictOf_last]
    intro p hp
    obtain ⟨x, hx, rfl⟩ := List.mem_map.mp hp
    simpa using hlast x hx
  · intro fns n habs
    show pyDictGet (pyDictOf (fns.map (fun x => (x.name, x)))) n = none
    apply pyDictGet_pyDictOf_eq_none
    intro p hp
    obtain ⟨x, hx, rfl⟩ := List.mem_map.mp hp
    simpa using habs x hx

/-- Catalog fixtures for the C8 witness: two functions sharing one name. -/
def fnA : Function := { name := "f", arguments := [], type := .prim, throws := [] }

def fnB : Function :=
  { name := "f", arguments := [(1, "z", true, .prim)], type := .prim, throws := [] }

theorem get_function_shadow_and_absent_witness :
    (Idl.mk [fnA, fnB]).get_function "f" = some fnB ∧
    (Idl.mk [fnA, fnB]).get_function "g" = none := by
  constructor
  · have h := get_function_shadow_and_absent.1 [] [] [] fnA fnB rfl (by simp)
    simpa [fnB] using h
  · apply get_function_shadow_and_absent.2 [fnA, fnB] "g"
    intro f hf
    rcases List.mem_cons.mp hf with rfl | hf
    · simp [fnA]
    · rcases List.mem_cons.mp hf with rfl | hf
      · simp [fnB]
      · cases hf

end ThriftTools
